import Mathlib

/-!
Verification development for the `ozx_image_atlas` backend.

The Python sources are shallowly embedded:

* `backend/atlas_core.py` — the occupancy grid (`check_if_took`, `took`,
  `map_height`, `find_position`) and the arithmetic helper `round_half_up`.
* `backend/shadow_matching.py` — filename normalization, shadow-suffix
  stripping, the shadow map, matching and ambiguity resolution.
* `backend/atlas_service.py` — the per-sprite pipeline of
  `AtlasProcessor.process_images`, with the pixel-level collaborators
  (decode, resize, filters, compositing) abstracted by their interface
  contracts: an image is embedded as its pixel size together with an
  opaque content identifier, since the orchestrator's control flow only
  observes sizes and pixel-equality.

Python `for ... in range(n)` loops are embedded as fuel-indexed structural
recursion (the fuel is the exact remaining iteration count of the source
loop), and the mutable `dict` used as the tile map is embedded as its key
membership predicate, the only observation the source ever makes of it.
-/

namespace OzxAtlas

/-- The tile map of one build.  The source passes a `dict` whose keys are
`x * 100 + y` and whose values are always `1`; only key membership is ever
observed, so the map is embedded as a membership predicate on keys. -/
def TileMap := Nat → Bool

/-- The fresh `tile_map = {}` of `process_images`. -/
def emptyMap : TileMap := fun _ => false

/-- `check_if_took(map_dict, x, y)`: `return (x * 100 + y) in map_dict`. -/
def check_if_took (m : TileMap) (x y : Nat) : Bool := m (x * 100 + y)

/-- `took(map_dict, x, y)`: `map_dict[x * 100 + y] = 1`. -/
def took (m : TileMap) (x y : Nat) : TileMap :=
  fun k => if k = x * 100 + y then true else m k

/-- Row `y` is fully free over columns `[0, width)`: the inner loop of
`map_height` sets `stop = False` iff some column of the row is occupied. -/
def rowFree (m : TileMap) (width y : Nat) : Bool :=
  (List.range width).all fun x => !check_if_took m x y

/-- The row scan of `map_height`: `for y in range(1000)`, returning the
first fully free row.  The fuel is the number of remaining iterations;
the scan yields `none` when the loop falls off its 1000-row bound
(Python then returns `None`). -/
def heightScan (m : TileMap) (width : Nat) : Nat → Nat → Option Nat
  | 0, _ => none
  | fuel + 1, y => if rowFree m width y then some y else heightScan m width fuel (y + 1)

/-- `map_height(map_dict, width)`. -/
def map_height (m : TileMap) (width : Nat) : Option Nat :=
  heightScan m width 1000 0

/-- The full `w × h` footprint test at `(x, y)`: the nested
`xoffset` / `yoffset` loops of `find_position` that compute `ok`. -/
def footFree (m : TileMap) (x y w h : Nat) : Bool :=
  (List.range w).all fun dx => (List.range h).all fun dy =>
    !check_if_took m (x + dx) (y + dy)

/-- The column scan of one row of `find_position`: `for x in range(width)`,
skipping occupied anchors (`check_if_took`), anchors whose footprint
overflows the width (`w + x > width`), and anchors with an occupied
footprint cell. -/
def rowScan (m : TileMap) (width w h y : Nat) : Nat → Nat → Option Nat
  | 0, _ => none
  | fuel + 1, x =>
    if !check_if_took m x y && decide (w + x ≤ width) && footFree m x y w h then some x
    else rowScan m width w h y fuel (x + 1)

/-- The cells covered by an accepted footprint, in the marking order of the
source (`xoffset` outer, `yoffset` inner). -/
def footCells (x y w h : Nat) : List (Nat × Nat) :=
  (List.range w).flatMap fun dx => (List.range h).map fun dy => (x + dx, y + dy)

/-- Marking loop of `find_position`: `took` on every covered cell. -/
def markFoot (m : TileMap) (x y w h : Nat) : TileMap :=
  (footCells x y w h).foldl (fun acc c => took acc c.1 c.2) m

/-- The row scan of `find_position`: `for y in range(1000)`. -/
def posScan (m : TileMap) (width w h : Nat) : Nat → Nat → Option (Nat × Nat)
  | 0, _ => none
  | fuel + 1, y =>
    match rowScan m width w h y width 0 with
    | some x => some (x, y)
    | none => posScan m width w h fuel (y + 1)

/-- `find_position(map_dict, width, w, h)`: the first accepted position
together with the updated map (the source mutates `map_dict` in place and
returns the position; falling off the 1000-row loop returns `None`). -/
def find_position (m : TileMap) (width w h : Nat) : Option ((Nat × Nat) × TileMap) :=
  match posScan m width w h 1000 0 with
  | none => none
  | some p => some (p, markFoot m p.1 p.2 w h)

/-- A placement: accepted anchor position and requested footprint. -/
def covers (pl : (Nat × Nat) × (Nat × Nat)) (c : Nat × Nat) : Prop :=
  pl.1.1 ≤ c.1 ∧ c.1 < pl.1.1 + pl.2.1 ∧ pl.1.2 ≤ c.2 ∧ c.2 < pl.1.2 + pl.2.2

/-- Two placements are disjoint when no cell is covered by both. -/
def disjointPl (p q : (Nat × Nat) × (Nat × Nat)) : Prop :=
  ∀ c, covers p c → covers q c → False

/-- The key under which the source stores a cell of the tile map. -/
def cellKey (c : Nat × Nat) : Nat := c.1 * 100 + c.2

/-- One build serving a sequence of placement requests, threading the tile
map through `find_position` exactly as the loop of `process_images` does
(a request the placer cannot serve leaves the map unchanged). -/
def placeAll (width : Nat) : TileMap → List (Nat × Nat) → TileMap × List ((Nat × Nat) × (Nat × Nat))
  | m, [] => (m, [])
  | m, (w, h) :: rest =>
    match find_position m width w h with
    | none => placeAll width m rest
    | some (pos, m2) =>
      let r := placeAll width m2 rest
      (r.1, (pos, (w, h)) :: r.2)

/-- The tile map produced by serving the request `(w, h) = (1, 1000)` at
width 1 on an empty grid: every row of the placer's 1000-row scan window
is occupied in column 0. -/
def blockedMap : TileMap := markFoot emptyMap 0 0 1 1000

/-! ### `backend/shadow_matching.py` -/

/-- Last index of `c` in `l`: Python `str.rfind`, with the `-1` sentinel for
an absent character embedded as `none`. -/
def rfindAux (c : Char) : List Char → Nat → Option Nat → Option Nat
  | [], _, best => best
  | a :: rest, i, best => rfindAux c rest (i + 1) (if a = c then some i else best)

def rfindIdx (c : Char) (l : List Char) : Option Nat := rfindAux c l 0 none

/-- The stem component of `os.path.splitext` (posix rules, as used by
`normalize_filename`): split at the last `.` that comes after the last `/`
separator, unless every character between that separator and the dot is
itself a dot (leading dots name a hidden file, not an extension). -/
def splitextStem (l : List Char) : List Char :=
  match rfindIdx '.' l with
  | none => l
  | some d =>
    let sepOk : Bool :=
      match rfindIdx '/' l with
      | none => true
      | some s => decide (s < d)
    let base : Nat :=
      match rfindIdx '/' l with
      | none => 0
      | some s => s + 1
    if sepOk && (List.range' base (d - base)).any (fun i => decide (l.get? i ≠ some '.')) then
      l.take d
    else l

/-- One character of the normalization pipeline: Python `str.lower`
(ASCII case folding, which is what `Char.toLower` implements and all the
repository's filenames exercise) followed by `replace(' ', '_')` and
`replace('-', '_')` — single-character `str.replace` is a character-wise
map, and the two replacements compose character-wise. -/
def normChar (c : Char) : Char :=
  let c1 := c.toLower
  let c2 := if c1 = ' ' then '_' else c1
  if c2 = '-' then '_' else c2

def normalizeData (l : List Char) : List Char := (splitextStem l).map normChar

/-- `normalize_filename(filename)`: drop the extension, lower-case,
replace spaces and dashes with underscores. -/
def normalize_filename (s : String) : String := ⟨normalizeData s.data⟩

/-- The suffix markers tried in order by `strip_shadow_suffix`. -/
def shadowSuffixes : List (List Char) :=
  ["__shadow".data, "_shadow".data, "-shadow".data, "(shadow)".data, "shadow".data]

/-- The suffix loop of `strip_shadow_suffix`: strip the first matching
marker once (`name[:-len(suffix)]`), then stop. -/
def stripFirst : List (List Char) → List Char → List Char
  | [], l => l
  | sfx :: rest, l =>
    if sfx.isSuffixOf l then l.take (l.length - sfx.length) else stripFirst rest l

def strip_shadow_suffix (s : String) : String := ⟨stripFirst shadowSuffixes s.data⟩

/-- `shadow_map.setdefault`-style bucket append: a fresh key is created at
the end, an existing bucket is extended in place, matching Python dict
insertion order (`if stripped not in shadow_map: shadow_map[stripped] = []`
followed by `append`). -/
def bucketAdd (m : List (String × List String)) (k v : String) : List (String × List String) :=
  match m with
  | [] => [(k, [v])]
  | (k2, vs) :: rest =>
    if k2 = k then (k2, vs ++ [v]) :: rest else (k2, vs) :: bucketAdd rest k v

/-- `build_shadow_map(shadow_filenames)`. -/
def build_shadow_map (shadow_filenames : List String) : List (String × List String) :=
  shadow_filenames.foldl
    (fun m sf => bucketAdd m (strip_shadow_suffix (normalize_filename sf)) sf) []

/-- Dict membership plus lookup (`key in map` / `map[key]`). -/
def dictGet (m : List (String × List String)) (k : String) : Option (List String) :=
  match m with
  | [] => none
  | (k2, vs) :: rest => if k2 = k then some vs else dictGet rest k

/-- `match_shadow_for_sprite(sprite_filename, shadow_map)`: a status string
(`"matched"` / `"missing"` / `"ambiguous"`) together with the candidates. -/
def match_shadow_for_sprite (sprite : String) (m : List (String × List String)) :
    String × List String :=
  match dictGet m (normalize_filename sprite) with
  | none => ("missing", [])
  | some candidates =>
    if candidates.length = 1 then ("matched", candidates) else ("ambiguous", candidates)

/-- Code-point lexicographic comparison of Python strings (`x < y`); the
repository's filenames are ASCII, where code-point order is byte order. -/
def lexLt : List Char → List Char → Bool
  | [], [] => false
  | [], _ :: _ => true
  | _ :: _, [] => false
  | a :: as, b :: bs => if a < b then true else if a = b then lexLt as bs else false

/-- Strict order of the Python sort key `(len(x), x)` used by
`resolve_ambiguous_shadow`. -/
def keyLt (a b : String) : Bool :=
  decide (a.data.length < b.data.length) ||
    (decide (a.data.length = b.data.length) && lexLt a.data b.data)

/-- Stable insertion into a `keyLt`-sorted list: equal keys keep input
order, so `sortByKey` computes `sorted(candidates, key=lambda x: (len(x), x))`
(Python's sort is stable). -/
def insSorted (x : String) : List String → List String
  | [] => [x]
  | y :: ys => if keyLt x y then x :: y :: ys else y :: insSorted x ys

def sortByKey : List String → List String
  | [] => []
  | x :: xs => insSorted x (sortByKey xs)

/-- `resolve_ambiguous_shadow(candidates)`: first element of the sorted
list, `None` for an empty candidate list. -/
def resolve_ambiguous_shadow (candidates : List String) : Option String :=
  match candidates with
  | [] => none
  | _ :: _ => (sortByKey candidates).head?

/-- The result dict of `process_shadow_matching`, with each Python dict
embedded as an insertion-ordered association list (`matchesMap` embeds the
source's `matches` dict; `matches` is a reserved word in Lean). -/
structure ShadowMatchResult where
  matchesMap : List (String × String)
  missing : List String
  ambiguous : List (String × List String)

/-- One iteration of the sprite loop of `process_shadow_matching`.  The
`matched` branch stores `candidates[0]` (such buckets always hold exactly
one element, so `headI` never uses its default); the `ambiguous` branch
reports the candidates and stores the auto-resolved shadow (ambiguous
buckets are nonempty, so `resolve_ambiguous_shadow` never returns the
`none` that `getD` defaults away). -/
def smStep (m : List (String × List String)) (r : ShadowMatchResult) (sprite : String) :
    ShadowMatchResult :=
  let sc := match_shadow_for_sprite sprite m
  if sc.1 = "matched" then
    { r with matchesMap := r.matchesMap ++ [(sprite, sc.2.headI)] }
  else if sc.1 = "missing" then
    { r with missing := r.missing ++ [sprite] }
  else
    { r with
      ambiguous := r.ambiguous ++ [(sprite, sc.2)],
      matchesMap := r.matchesMap ++ [(sprite, (resolve_ambiguous_shadow sc.2).getD "")] }

/-- `process_shadow_matching(sprite_filenames, shadow_filenames)`. -/
def process_shadow_matching (sprites shadows : List String) : ShadowMatchResult :=
  sprites.foldl (smStep (build_shadow_map shadows)) ⟨[], [], []⟩

/-! ### `backend/atlas_service.py` -/

/-- `round_half_up(n)` of `atlas_core.py`: `int(n + 0.5)` for `n ≥ 0` and
`int(n - 0.5)` otherwise; Python `int` truncates toward zero, which is
floor on nonnegative and ceiling on negative arguments.  The source
computes on floats; the embedding uses exact rationals, with addition and
subtraction spelled out over `Rat.divInt` because the library's rational
field operations are irreducible and would block evaluation. -/
def qAdd (a b : ℚ) : ℚ := Rat.divInt (a.num * b.den + b.num * a.den) (a.den * b.den)

def qSub (a b : ℚ) : ℚ := Rat.divInt (a.num * b.den - b.num * a.den) (a.den * b.den)

def round_half_up (n : ℚ) : ℤ :=
  if 0 ≤ n then Rat.floor (qAdd n (Rat.divInt 1 2))
  else Rat.ceil (qSub n (Rat.divInt 1 2))

/-- A decoded RGBA image, abstracted to what the orchestrator's control
flow observes: the pixel size and an opaque content identifier standing
for the pixel buffer (`Image.open(...).convert("RGBA")` fixes the mode). -/
structure ImageData where
  w : Nat
  h : Nat
  content : Nat
deriving DecidableEq

/-- `image_equal(img1, img2)` of `atlas_core.py` under the §6
pixel-equality contract: true iff modes (always RGBA here), sizes and
pixel buffers coincide — equality of the abstracted image. -/
def image_equal (a b : ImageData) : Bool := decide (a = b)

/-- One uploaded sprite: its filename, its decode result (`none` embeds a
failing `Image.open`) and the exception text of the failing case. -/
structure SpriteIn where
  name : String
  image : Option ImageData
  err : String

/-- `AtlasParams` of `atlas_service.py`.  Fields that only tune pixel
transforms are kept for shape but do not influence the embedded control
flow; `missing_shadow_policy` stays a plain string as in the source. -/
structure AtlasParams where
  tile_size : Nat := 52
  width : Nat := 6
  sample : Nat := 1
  outline : Nat := 0
  remove_color : Option String := none
  shadow_scale : ℚ := 0
  use_shadow_images : Bool := false
  missing_shadow_policy : String := "skipShadow"
  use_background : Bool := false
  preview_max_width : Nat := 1024

/-- `AtlasProcessor.process_sprite`: the color-key, outline and shadow
transforms keep the image size and can only change pixels (§6 contracts),
so the embedding tracks the one size-relevant step — the resize to
`(tile_size, tile_size * round_half_up(height / width))`.  PIL's resize
raises `ValueError("height and width must be > 0")` when a target
dimension is zero, embedded as `Except.error` (the per-sprite handler of
`process_images` catches it).  The shadow argument feeds only pixel
compositing and is therefore unused here. -/
def process_sprite (p : AtlasParams) (img : ImageData) (_shadow_img : Option ImageData) :
    Except String ImageData :=
  if p.tile_size = 0 ∨ p.tile_size * (round_half_up (Rat.divInt (img.h : ℤ) (img.w : ℤ))).toNat = 0 then
    Except.error "height and width must be > 0"
  else
    Except.ok
      { w := p.tile_size,
        h := p.tile_size * (round_half_up (Rat.divInt (img.h : ℤ) (img.w : ℤ))).toNat,
        content := img.content }

/-- The per-build report (`self.report`). -/
structure Report where
  ignored : List (String × String)
  shadowMissing : List String
  shadowAmbiguous : List (String × List String)
deriving DecidableEq

/-- The mutable loop state of `process_images`: the `ignored` report list,
`last_image`, `tile_map`, and `processed_images` — a dict keyed by the
placement (`none` embeds the `None` key used when the placer failed),
embedded as the append-ordered list of its insertions; keys of accepted
placements are pairwise distinct, so no overwrite is lost. -/
structure BuildState where
  ignored : List (String × String)
  last : Option ImageData
  tileMap : TileMap
  placed : List (Option (Nat × Nat) × ImageData)

/-- The tail of one sprite iteration of `process_images`, from
`process_sprite` on: tile-alignment check, footprint and width check,
background compositing (pixels only), and placement. -/
def placeStage (p : AtlasParams) (n : String) (img : ImageData)
    (sh : Option ImageData) (st : BuildState) : BuildState :=
  match process_sprite p img sh with
  | Except.error e =>
    { st with ignored := st.ignored ++ [(n, "processing error: " ++ e)] }
  | Except.ok img2 =>
    if img2.w % p.tile_size ≠ 0 ∨ img2.h % p.tile_size ≠ 0 then
      { st with ignored := st.ignored ++ [(n, "size alignment")] }
    else
      if img2.w / p.tile_size > p.width then
        { st with ignored := st.ignored ++ [(n, "too wide")] }
      else
        match find_position st.tileMap p.width (img2.w / p.tile_size) (img2.h / p.tile_size) with
        | none => { st with placed := st.placed ++ [(none, img2)] }
        | some (pos, m2) =>
          { st with
            tileMap := m2
            placed := st.placed ++ [(some pos, img2)] }

/-- One iteration of the sprite loop of `process_images` for the sprite at
index `i`: sampling filter, decode (a decode exception becomes a
"processing error" entry), duplicate suppression against `last_image`,
update of `last_image`, then the shadow lookup with the missing-shadow
policy.  `shadowKeys` holds the sprite names with a resolved shadow
(the keys of `shadow_matches`).  The `ValueError` raised under the
`"fail"` policy is caught by the same per-sprite `except Exception`
handler as every other in-loop exception, so it is embedded as the report
entry that handler produces.  The shadow image itself feeds only pixel
compositing, so `placeStage` receives `none`. -/
def stepSprite (p : AtlasParams) (shadowKeys : List String) (st : BuildState)
    (i : Nat) (sp : SpriteIn) : BuildState :=
  if p.sample > 1 ∧ i % p.sample ≠ 0 then st
  else
    match sp.image with
    | none => { st with ignored := st.ignored ++ [(sp.name, "processing error: " ++ sp.err)] }
    | some img =>
      if (match st.last with | some l => image_equal l img | none => false) then
        { st with ignored := st.ignored ++ [(sp.name, "duplicate")] }
      else
        if p.use_shadow_images && !(shadowKeys.contains sp.name) then
          if p.missing_shadow_policy = "ignoreSprite" then
            { st with
              last := some img
              ignored := st.ignored ++ [(sp.name, "missing shadow")] }
          else if p.missing_shadow_policy = "fail" then
            { st with
              last := some img
              ignored := st.ignored ++
                [(sp.name, "processing error: Missing shadow for " ++ sp.name)] }
          else placeStage p sp.name img none { st with last := some img }
        else placeStage p sp.name img none { st with last := some img }

/-- `AtlasProcessor.process_images`, observed up to the data the claims
inspect: on success the atlas pixel size `(tile_size * width,
tile_size * height)` together with the report; `Except.error` embeds the
exceptions that escape the loop.  A placement the placer refused is stored
under the `None` key and makes the final paste loop raise a `TypeError`,
as does a `None` result of the height scan; both are embedded as build
errors.  The source guards the shadow phase on `use_shadow_images` and
both shadow lists being nonempty. -/
def process_images (p : AtlasParams) (sprites : List SpriteIn) (shadowNames : List String) :
    Except String ((Nat × Nat) × Report) :=
  let useSh := p.use_shadow_images && !shadowNames.isEmpty
  let smr := process_shadow_matching (sprites.map (fun sp => sp.name)) shadowNames
  let shadowKeys := if useSh then smr.matchesMap.map (fun e => e.1) else []
  let repMissing := if useSh then smr.missing else []
  let repAmbiguous := if useSh then smr.ambiguous else []
  let stF := (sprites.enum).foldl (fun st pr => stepSprite p shadowKeys st pr.1 pr.2)
    ⟨[], none, emptyMap, []⟩
  if stF.placed.isEmpty then Except.error "No images to process"
  else
    match map_height stF.tileMap p.width with
    | none => Except.error "TypeError: atlas height is None"
    | some hh =>
      if stF.placed.any (fun pr => pr.1.isNone) then
        Except.error "TypeError: placement key is None"
      else
        Except.ok ((p.tile_size * p.width, p.tile_size * hh),
          ⟨stF.ignored, repMissing, repAmbiguous⟩)

deriving instance DecidableEq for Except

/-! ### Lemmas about the occupancy grid and the placer -/

theorem footFree_spec {m : TileMap} {x y w h : Nat} (hf : footFree m x y w h = true) :
    ∀ dx < w, ∀ dy < h, check_if_took m (x + dx) (y + dy) = false := by
  intro dx hdx dy hdy
  simp only [footFree, List.all_eq_true, List.mem_range] at hf
  simpa using hf dx hdx dy hdy

theorem rowScan_some {m : TileMap} {width w h y : Nat} :
    ∀ fuel x0 x, rowScan m width w h y fuel x0 = some x →
      (!check_if_took m x y && decide (w + x ≤ width) && footFree m x y w h) = true := by
  intro fuel
  induction fuel with
  | zero => intro x0 x hx; simp [rowScan] at hx
  | succ n ih =>
    intro x0 x hx
    by_cases hc : (!check_if_took m x0 y && decide (w + x0 ≤ width) && footFree m x0 y w h) = true
    · rw [rowScan, if_pos hc] at hx
      cases hx
      exact hc
    · rw [rowScan, if_neg hc] at hx
      exact ih (x0 + 1) x hx

theorem rowScan_isSome {m : TileMap} {width w h y : Nat} :
    ∀ fuel x0,
      (∃ x, x0 ≤ x ∧ x < x0 + fuel ∧
        (!check_if_took m x y && decide (w + x ≤ width) && footFree m x y w h) = true) →
      (rowScan m width w h y fuel x0).isSome := by
  intro fuel
  induction fuel with
  | zero => intro x0 hx; exact absurd hx (by rintro ⟨x, h1, h2, _⟩; omega)
  | succ n ih =>
    intro x0 hx
    by_cases hc : (!check_if_took m x0 y && decide (w + x0 ≤ width) && footFree m x0 y w h) = true
    · rw [rowScan, if_pos hc]; rfl
    · rw [rowScan, if_neg hc]
      obtain ⟨x, h1, h2, h3⟩ := hx
      refine ih (x0 + 1) ⟨x, ?_, by omega, h3⟩
      rcases Nat.eq_or_lt_of_le h1 with rfl | hlt
      · exact absurd h3 hc
      · omega

theorem posScan_some {m : TileMap} {width w h : Nat} :
    ∀ fuel y0 x y, posScan m width w h fuel y0 = some (x, y) →
      rowScan m width w h y width 0 = some x := by
  intro fuel
  induction fuel with
  | zero => intro y0 x y hy; simp [posScan] at hy
  | succ n ih =>
    intro y0 x y hy
    rw [posScan] at hy
    cases hr : rowScan m width w h y0 width 0 with
    | some x1 => rw [hr] at hy; cases hy; exact hr
    | none => rw [hr] at hy; exact ih (y0 + 1) x y hy

theorem posScan_isSome {m : TileMap} {width w h : Nat} :
    ∀ fuel y0,
      (∃ y, y0 ≤ y ∧ y < y0 + fuel ∧ (rowScan m width w h y width 0).isSome) →
      (posScan m width w h fuel y0).isSome := by
  intro fuel
  induction fuel with
  | zero => intro y0 hy; exact absurd hy (by rintro ⟨y, h1, h2, _⟩; omega)
  | succ n ih =>
    intro y0 hy
    rw [posScan]
    cases hr : rowScan m width w h y0 width 0 with
    | some x1 => rfl
    | none =>
      obtain ⟨y, h1, h2, h3⟩ := hy
      refine ih (y0 + 1) ⟨y, ?_, by omega, h3⟩
      rcases Nat.eq_or_lt_of_le h1 with rfl | hlt
      · rw [hr] at h3; cases h3
      · omega

theorem mem_footCells {x y w h : Nat} {c : Nat × Nat} :
    c ∈ footCells x y w h ↔ covers ((x, y), (w, h)) c := by
  simp only [footCells, List.mem_flatMap, List.mem_map, List.mem_range, covers]
  constructor
  · rintro ⟨dx, hdx, dy, hdy, rfl⟩
    exact ⟨Nat.le_add_right _ _, by omega, Nat.le_add_right _ _, by omega⟩
  · rintro ⟨h1, h2, h3, h4⟩
    exact ⟨c.1 - x, by omega, c.2 - y, by omega, by obtain ⟨a, b⟩ := c; simp; omega⟩

theorem took_mono {m : TileMap} {x y k : Nat} (hk : m k = true) : took m x y k = true := by
  unfold took
  split <;> simp [hk]

theorem took_self {m : TileMap} {x y : Nat} : took m x y (x * 100 + y) = true := by
  simp [took]

theorem foldl_took_mono {k : Nat} :
    ∀ (l : List (Nat × Nat)) (m : TileMap), m k = true →
      (l.foldl (fun acc c => took acc c.1 c.2) m) k = true := by
  intro l
  induction l with
  | nil => intro m hm; exact hm
  | cons c rest ih => intro m hm; exact ih (took m c.1 c.2) (took_mono hm)

theorem foldl_took_covers :
    ∀ (l : List (Nat × Nat)) (m : TileMap) (c : Nat × Nat), c ∈ l →
      (l.foldl (fun acc c => took acc c.1 c.2) m) (cellKey c) = true := by
  intro l
  induction l with
  | nil => intro m c hc; cases hc
  | cons a rest ih =>
    intro m c hc
    rcases List.mem_cons.mp hc with rfl | hc2
    · exact foldl_took_mono rest (took m c.1 c.2) took_self
    · exact ih (took m a.1 a.2) c hc2

theorem markFoot_mono {m : TileMap} {x y w h k : Nat} (hk : m k = true) :
    markFoot m x y w h k = true :=
  foldl_took_mono _ m hk

theorem markFoot_covers {m : TileMap} {x y w h : Nat} {c : Nat × Nat}
    (hc : covers ((x, y), (w, h)) c) : markFoot m x y w h (cellKey c) = true :=
  foldl_took_covers _ m c (mem_footCells.mpr hc)

/-- Anatomy of a successful `find_position` call: the accepted footprint was
fully free in the incoming map, no key of the incoming map is cleared, and
every covered cell is marked in the outgoing map. -/
theorem find_position_some {m m2 : TileMap} {width w h : Nat} {pos : Nat × Nat}
    (hfp : find_position m width w h = some (pos, m2)) :
    (∀ c, covers (pos, (w, h)) c → m (cellKey c) = false) ∧
    (∀ k, m k = true → m2 k = true) ∧
    (∀ c, covers (pos, (w, h)) c → m2 (cellKey c) = true) := by
  unfold find_position at hfp
  cases hps : posScan m width w h 1000 0 with
  | none => rw [hps] at hfp; cases hfp
  | some p =>
    obtain ⟨x, y⟩ := p
    rw [hps] at hfp
    cases hfp
    have hrow := posScan_some 1000 0 x y hps
    have hpred := rowScan_some width 0 x hrow
    have hfoot : footFree m x y w h = true := by
      simp only [Bool.and_eq_true] at hpred
      exact hpred.2
    refine ⟨?_, fun k hk => markFoot_mono hk, fun c hc => markFoot_covers hc⟩
    intro c hc
    obtain ⟨h1, h2, h3, h4⟩ : x ≤ c.1 ∧ c.1 < x + w ∧ y ≤ c.2 ∧ c.2 < y + h := hc
    have := footFree_spec hfoot (c.1 - x) (by omega) (c.2 - y) (by omega)
    have hxy : x + (c.1 - x) = c.1 := by omega
    have hyy : y + (c.2 - y) = c.2 := by omega
    rw [hxy, hyy] at this
    simpa [check_if_took, cellKey] using this

/-- Placements already marked in the incoming map stay marked through a whole
request sequence. -/
theorem placeAll_mono {width : Nat} :
    ∀ (reqs : List (Nat × Nat)) (m : TileMap) (k : Nat), m k = true →
      (placeAll width m reqs).1 k = true := by
  intro reqs
  induction reqs with
  | nil => intro m k hk; exact hk
  | cons r rest ih =>
    intro m k hk
    obtain ⟨w, h⟩ := r
    rw [placeAll]
    cases hfp : find_position m width w h with
    | none => exact ih m k hk
    | some pm =>
      obtain ⟨pos, m2⟩ := pm
      exact ih m2 k ((find_position_some hfp).2.1 k hk)

/-- Every placement accepted during a request sequence has a footprint that
was entirely free (key-wise) in the map the sequence started from. -/
theorem placeAll_fresh {width : Nat} :
    ∀ (reqs : List (Nat × Nat)) (m : TileMap) (p : (Nat × Nat) × (Nat × Nat)),
      p ∈ (placeAll width m reqs).2 → ∀ c, covers p c → m (cellKey c) = false := by
  intro reqs
  induction reqs with
  | nil => intro m p hp; cases hp
  | cons r rest ih =>
    intro m p hp c hc
    obtain ⟨w, h⟩ := r
    rw [placeAll] at hp
    cases hfp : find_position m width w h with
    | none => rw [hfp] at hp; exact ih m p hp c hc
    | some pm =>
      obtain ⟨pos, m2⟩ := pm
      rw [hfp] at hp
      rcases List.mem_cons.mp hp with rfl | hp2
      · exact (find_position_some hfp).1 c hc
      · have h2 := ih m2 p hp2 c hc
        by_contra hcon
        have : m (cellKey c) = true := by
          cases hm : m (cellKey c) with
          | true => rfl
          | false => exact absurd hm hcon
        rw [(find_position_some hfp).2.1 _ this] at h2
        cases h2

theorem placeAll_pairwise {width : Nat} :
    ∀ (reqs : List (Nat × Nat)) (m : TileMap),
      List.Pairwise disjointPl (placeAll width m reqs).2 := by
  intro reqs
  induction reqs with
  | nil => intro m; exact List.Pairwise.nil
  | cons r rest ih =>
    intro m
    obtain ⟨w, h⟩ := r
    rw [placeAll]
    cases hfp : find_position m width w h with
    | none => exact ih m
    | some pm =>
      obtain ⟨pos, m2⟩ := pm
      refine List.Pairwise.cons ?_ (ih m2)
      intro q hq c hc hqc
      have hmarked : m2 (cellKey c) = true := (find_position_some hfp).2.2 c hc
      have hfree : m2 (cellKey c) = false := placeAll_fresh rest m2 q hq c hqc
      rw [hmarked] at hfree
      cases hfree

theorem rowFree_true_iff {m : TileMap} {width y : Nat} :
    rowFree m width y = true ↔ ∀ x < width, check_if_took m x y = false := by
  simp [rowFree, List.all_eq_true, List.mem_range, Bool.not_eq_true']

theorem rowFree_false_iff {m : TileMap} {width y : Nat} :
    rowFree m width y = false ↔ ∃ x < width, check_if_took m x y = true := by
  rw [← Bool.not_eq_true, rowFree_true_iff]
  push_neg
  simp [Bool.not_eq_false]

theorem heightScan_some {m : TileMap} {width : Nat} :
    ∀ fuel y0 H, heightScan m width fuel y0 = some H →
      rowFree m width H = true ∧ ∀ y, y0 ≤ y → y < H → rowFree m width y = false := by
  intro fuel
  induction fuel with
  | zero => intro y0 H hH; simp [heightScan] at hH
  | succ n ih =>
    intro y0 H hH
    by_cases hr : rowFree m width y0 = true
    · rw [heightScan, if_pos hr] at hH
      cases hH
      exact ⟨hr, fun y h1 h2 => by omega⟩
    · rw [heightScan, if_neg hr] at hH
      obtain ⟨ha, hb⟩ := ih (y0 + 1) H hH
      refine ⟨ha, fun y h1 h2 => ?_⟩
      rcases Nat.eq_or_lt_of_le h1 with rfl | hlt
      · exact Bool.not_eq_true _ ▸ (by simpa using hr)
      · exact hb y hlt h2

theorem rowScan_none {m : TileMap} {width w h y : Nat} :
    ∀ fuel x0,
      (∀ x, x0 ≤ x → x < x0 + fuel →
        (!check_if_took m x y && decide (w + x ≤ width) && footFree m x y w h) = false) →
      rowScan m width w h y fuel x0 = none := by
  intro fuel
  induction fuel with
  | zero => intro x0 _; rfl
  | succ n ih =>
    intro x0 hall
    rw [rowScan, if_neg (by simp [hall x0 (Nat.le_refl x0) (by omega)])]
    exact ih (x0 + 1) fun x h1 h2 => hall x (by omega) (by omega)

theorem rowScan_accept {m : TileMap} {width w h y x0 f : Nat}
    (hp : (!check_if_took m x0 y && decide (w + x0 ≤ width) && footFree m x0 y w h) = true) :
    rowScan m width w h y (f + 1) x0 = some x0 := by
  rw [rowScan, if_pos hp]

theorem posScan_accept {m : TileMap} {width w h y0 f x : Nat}
    (hr : rowScan m width w h y0 width 0 = some x) :
    posScan m width w h (f + 1) y0 = some (x, y0) := by
  rw [posScan, hr]

theorem find_position_eq_some {m : TileMap} {width w h x y : Nat}
    (hp : posScan m width w h 1000 0 = some (x, y)) :
    find_position m width w h = some ((x, y), markFoot m x y w h) := by
  unfold find_position
  rw [hp]

theorem find_position_eq_none {m : TileMap} {width w h : Nat}
    (hp : posScan m width w h 1000 0 = none) :
    find_position m width w h = none := by
  unfold find_position
  rw [hp]

theorem posScan_none {m : TileMap} {width w h : Nat} :
    ∀ fuel y0,
      (∀ y, y0 ≤ y → y < y0 + fuel → rowScan m width w h y width 0 = none) →
      posScan m width w h fuel y0 = none := by
  intro fuel
  induction fuel with
  | zero => intro y0 _; rfl
  | succ n ih =>
    intro y0 hall
    rw [posScan, hall y0 (Nat.le_refl y0) (by omega)]
    exact ih (y0 + 1) fun y h1 h2 => hall y (by omega) (by omega)

/-! ### Claim theorems: occupancy grid and placer -/

/-- C1: within one build, no two placements accepted by `find_position`
cover a common cell, and a key once marked in the tile map is never cleared
by any later sequence of requests. -/
theorem placements_never_overlap (width : Nat) (reqs : List (Nat × Nat)) :
    List.Pairwise disjointPl (placeAll width emptyMap reqs).2 ∧
    (∀ (m : TileMap) (reqs2 : List (Nat × Nat)) (k : Nat),
      m k = true → (placeAll width m reqs2).1 k = true) :=
  ⟨placeAll_pairwise reqs emptyMap, fun m reqs2 k hk => placeAll_mono reqs2 m k hk⟩

theorem placements_never_overlap_witness :
    (took emptyMap 0 0) 0 = true ∧ (placeAll 2 (took emptyMap 0 0) [(1, 1)]).1 0 = true :=
  ⟨rfl, (placements_never_overlap 2 []).2 (took emptyMap 0 0) [(1, 1)] 0 rfl⟩

/-- C3 (counterexample): the claim that `find_position` succeeds for every
grid state whenever `w ≤ width` is false: after a single accepted request
`(1, 1000)` at width 1 every row of the bounded 1000-row scan window is
occupied, and the next `(1, 1)` request — with `w = 1 ≤ width = 1` —
returns `None`. -/
theorem find_position_fails_when_window_full :
    find_position emptyMap 1 1 1000 = some ((0, 0), blockedMap) ∧
    find_position blockedMap 1 1 1 = none ∧ (1 : Nat) ≤ 1 := by
  refine ⟨?_, ?_, Nat.le_refl 1⟩
  · have hpred :
        (!check_if_took emptyMap 0 0 && decide (1 + 0 ≤ 1) && footFree emptyMap 0 0 1 1000) = true := by
      simp [check_if_took, emptyMap, footFree]
    have hrow : rowScan emptyMap 1 1 1000 0 1 0 = some 0 := rowScan_accept (f := 0) hpred
    have h1 : posScan emptyMap 1 1 1000 1000 0 = some (0, 0) := posScan_accept (f := 999) hrow
    exact find_position_eq_some h1
  · have hblocked : ∀ y < 1000, check_if_took blockedMap 0 y = true := by
      intro y hy
      exact markFoot_covers (c := (0, y))
        (show (0 : Nat) ≤ 0 ∧ 0 < 0 + 1 ∧ 0 ≤ y ∧ y < 0 + 1000 from
          ⟨Nat.le_refl 0, by omega, Nat.zero_le y, by omega⟩)
    have hrows : ∀ y2, 0 ≤ y2 → y2 < 0 + 1000 → rowScan blockedMap 1 1 1 y2 1 0 = none := by
      intro y2 _ hy2
      refine rowScan_none 1 0 ?_
      intro x hx0 hx1
      have hx : x = 0 := by omega
      subst hx
      simp [hblocked y2 (by omega)]
    have h2 : posScan blockedMap 1 1 1 1000 0 = none := posScan_none 1000 0 hrows
    exact find_position_eq_none h2

/-- C3 (amended): the placer succeeds whenever some anchor inside the
1000-row scan window fits: `y < 1000`, `x < width`, `w + x ≤ width`, a free
anchor cell, and a fully free footprint. -/
theorem find_position_succeeds_in_window (m : TileMap) (width w h x y : Nat)
    (hy : y < 1000) (hx : x < width) (hxw : w + x ≤ width)
    (hanchor : check_if_took m x y = false) (hfoot : footFree m x y w h = true) :
    (find_position m width w h).isSome := by
  have hrow : (rowScan m width w h y width 0).isSome :=
    rowScan_isSome width 0 ⟨x, Nat.zero_le x, by omega, by simp [hanchor, hxw, hfoot]⟩
  have hpos : (posScan m width w h 1000 0).isSome :=
    posScan_isSome 1000 0 ⟨y, Nat.zero_le y, by omega, hrow⟩
  unfold find_position
  cases hps : posScan m width w h 1000 0 with
  | none => rw [hps] at hpos; cases hpos
  | some p => rfl

theorem find_position_succeeds_in_window_witness :
    (find_position emptyMap 6 2 3).isSome :=
  find_position_succeeds_in_window emptyMap 6 2 3 0 0 (by decide) (by decide)
    (by decide) (by decide) (by decide)

/-- C8: whenever the height query returns `H`, row `H` is fully free over
all columns in `[0, width)` and no row strictly below `H` is fully free;
and the height of the empty grid is 0 at every width. -/
theorem map_height_result_spec (m : TileMap) (width H : Nat) :
    (map_height m width = some H →
      (∀ x < width, check_if_took m x H = false) ∧
      ∀ y < H, ∃ x < width, check_if_took m x y = true) ∧
    map_height emptyMap width = some 0 := by
  constructor
  · intro hH
    obtain ⟨ha, hb⟩ := heightScan_some 1000 0 H hH
    exact ⟨rowFree_true_iff.mp ha,
      fun y hy => rowFree_false_iff.mp (hb y (Nat.zero_le y) hy)⟩
  · have h : rowFree emptyMap width 0 = true := by
      simp [rowFree, check_if_took, emptyMap]
    show heightScan emptyMap width 1000 0 = some 0
    rw [show (1000 : Nat) = 999 + 1 by rfl, heightScan, if_pos h]

theorem map_height_result_spec_witness :
    map_height (took emptyMap 0 0) 1 = some 1 ∧
    ((∀ x < 1, check_if_took (took emptyMap 0 0) x 1 = false) ∧
      ∀ y < 1, ∃ x < 1, check_if_took (took emptyMap 0 0) x y = true) :=
  ⟨rfl, (map_height_result_spec (took emptyMap 0 0) 1 1).1 rfl⟩

/-- C9: the tile-map key `x * 100 + y` conflates distinct cells: for
`y ≥ 100` the cells `(x, y)` and `(x + 1, y - 100)` share one key, so
`check_if_took` answers identically for them and `took` marks them
together. -/
theorem cell_key_conflation (m : TileMap) (x y : Nat) (hy : 100 ≤ y) :
    check_if_took m x y = check_if_took m (x + 1) (y - 100) ∧
    took m x y = took m (x + 1) (y - 100) := by
  have hk : (x + 1) * 100 + (y - 100) = x * 100 + y := by omega
  constructor
  · unfold check_if_took; rw [hk]
  · unfold took; funext k; rw [hk]

theorem cell_key_conflation_witness :
    check_if_took (took emptyMap 0 100) 0 100 = check_if_took (took emptyMap 0 100) 1 0 ∧
    took emptyMap 0 100 = took emptyMap 1 0 :=
  ⟨(cell_key_conflation (took emptyMap 0 100) 0 100 (by decide)).1,
   (cell_key_conflation emptyMap 0 100 (by decide)).2⟩

/-! ### Lemmas about filename normalization -/

theorem toNat_ofNat_of_valid {n : Nat} (h : n.isValidChar) : (Char.ofNat n).toNat = n := by
  rw [Char.ofNat, dif_pos h]
  rfl

theorem toLower_toLower (c : Char) : c.toLower.toLower = c.toLower := by
  unfold Char.toLower
  by_cases h : c.toNat ≥ 65 ∧ c.toNat ≤ 90
  · rw [if_pos h]
    have hv : (c.toNat + 32).isValidChar := Or.inl (by omega)
    have ht : (Char.ofNat (c.toNat + 32)).toNat = c.toNat + 32 := toNat_ofNat_of_valid hv
    rw [if_neg]
    rw [ht]
    omega
  · rw [if_neg h, if_neg h]

theorem normChar_idem (c : Char) : normChar (normChar c) = normChar c := by
  by_cases h1 : c.toLower = ' '
  · have he : normChar c = '_' := by simp [normChar, h1]
    rw [he]
    decide
  · by_cases h2 : c.toLower = '-'
    · have he : normChar c = '_' := by simp [normChar, h1, h2]
      rw [he]
      decide
    · have he : normChar c = c.toLower := by simp [normChar, h1, h2]
      rw [he]
      simp [normChar, toLower_toLower, h1, h2]

theorem map_normChar_idem :
    ∀ l : List Char, (l.map normChar).map normChar = l.map normChar := by
  intro l
  induction l with
  | nil => rfl
  | cons a rest ih => simp [normChar_idem, ih]

theorem rfindAux_of_not_mem {c : Char} :
    ∀ (l : List Char) (i : Nat) (best : Option Nat), c ∉ l → rfindAux c l i best = best := by
  intro l
  induction l with
  | nil => intro i best _; rfl
  | cons a rest ih =>
    intro i best hmem
    have ha : ¬a = c := fun he => hmem (he ▸ List.mem_cons_self a rest)
    rw [rfindAux, if_neg ha]
    exact ih (i + 1) best fun hm => hmem (List.mem_cons_of_mem a hm)

theorem splitextStem_of_no_dot {l : List Char} (h : '.' ∉ l) : splitextStem l = l := by
  have hr : rfindIdx '.' l = none := rfindAux_of_not_mem l 0 none h
  unfold splitextStem
  rw [hr]

/-! ### Claim theorems: filename normalization -/

/-- C5 (counterexample): normalization is not idempotent — a stem that
itself contains a dot loses one more suffix per application:
`normalize("a.b.png") = "a.b"` but `normalize("a.b") = "a"`. -/
theorem normalize_filename_not_idempotent :
    normalize_filename (String.mk ('a' :: '.' :: 'b' :: '.' :: 'p' :: 'n' :: 'g' :: [])) =
      String.mk ('a' :: '.' :: 'b' :: []) ∧
    normalize_filename (normalize_filename
        (String.mk ('a' :: '.' :: 'b' :: '.' :: 'p' :: 'n' :: 'g' :: []))) =
      String.mk ('a' :: []) ∧
    normalize_filename (normalize_filename
        (String.mk ('a' :: '.' :: 'b' :: '.' :: 'p' :: 'n' :: 'g' :: []))) ≠
      normalize_filename (String.mk ('a' :: '.' :: 'b' :: '.' :: 'p' :: 'n' :: 'g' :: [])) := by
  refine ⟨?_, ?_, ?_⟩ <;> decide

/-- C5 (amended): normalization is idempotent on every filename whose
normal form contains no dot (single-extension names included).  This is a
sufficient condition, not a characterization: a dotted normal form such as
`".png"` is also idempotent, because `splitext` never treats leading dots
as an extension. -/
theorem normalize_filename_idempotent_of_no_dot (s : String)
    (h : '.' ∉ (normalize_filename s).data) :
    normalize_filename (normalize_filename s) = normalize_filename s := by
  have hsplit : splitextStem (normalizeData s.data) = normalizeData s.data :=
    splitextStem_of_no_dot h
  show String.mk (normalizeData (normalizeData s.data)) = String.mk (normalizeData s.data)
  have : normalizeData (normalizeData s.data) = normalizeData s.data := by
    show normalizeData (normalizeData s.data) = normalizeData s.data
    unfold normalizeData
    rw [show splitextStem ((splitextStem s.data).map normChar) =
          (splitextStem s.data).map normChar from hsplit]
    exact map_normChar_idem _
  rw [this]

theorem normalize_filename_idempotent_witness :
    normalize_filename (normalize_filename
        (String.mk ('H' :: 'e' :: 'r' :: 'o' :: ' ' :: '2' :: '.' :: 'P' :: 'N' :: 'G' :: []))) =
      normalize_filename
        (String.mk ('H' :: 'e' :: 'r' :: 'o' :: ' ' :: '2' :: '.' :: 'P' :: 'N' :: 'G' :: [])) :=
  normalize_filename_idempotent_of_no_dot _ (by decide)

/-! ### Lemmas about ambiguous-shadow resolution -/

theorem lexLt_irrefl : ∀ l : List Char, lexLt l l = false := by
  intro l
  induction l with
  | nil => rfl
  | cons a rest ih => simp [lexLt, ih]

theorem lexLt_trans : ∀ a b c : List Char,
    lexLt a b = true → lexLt b c = true → lexLt a c = true := by
  intro a
  induction a with
  | nil =>
    intro b c hab hbc
    cases b with
    | nil => simp [lexLt] at hab
    | cons y ys =>
      cases c with
      | nil => simp [lexLt] at hbc
      | cons z zs => rfl
  | cons x xs ih =>
    intro b c hab hbc
    cases b with
    | nil => simp [lexLt] at hab
    | cons y ys =>
      cases c with
      | nil => simp [lexLt] at hbc
      | cons z zs =>
        rw [lexLt] at hab hbc ⊢
        by_cases hxy : x < y
        · by_cases hyz : y < z
          · rw [if_pos (lt_trans hxy hyz)]
          · rw [if_neg hyz] at hbc
            by_cases hyz2 : y = z
            · subst hyz2
              rw [if_pos hxy]
            · rw [if_neg hyz2] at hbc
              cases hbc
        · rw [if_neg hxy] at hab
          by_cases hxy2 : x = y
          · subst hxy2
            rw [if_pos rfl] at hab
            by_cases hxz : x < z
            · rw [if_pos hxz]
            · rw [if_neg hxz] at hbc ⊢
              by_cases hxz2 : x = z
              · subst hxz2
                rw [if_pos rfl] at hbc ⊢
                exact ih ys zs hab hbc
              · rw [if_neg hxz2] at hbc
                cases hbc
          · rw [if_neg hxy2] at hab
            cases hab

theorem keyLt_irrefl (a : String) : keyLt a a = false := by
  simp [keyLt, lexLt_irrefl]

theorem keyLt_trans {a b c : String} (hab : keyLt a b = true) (hbc : keyLt b c = true) :
    keyLt a c = true := by
  simp only [keyLt, Bool.or_eq_true, Bool.and_eq_true, decide_eq_true_eq] at hab hbc ⊢
  rcases hab with h1 | ⟨h1, h2⟩ <;> rcases hbc with g1 | ⟨g1, g2⟩
  · exact Or.inl (by omega)
  · exact Or.inl (by omega)
  · exact Or.inl (by omega)
  · exact Or.inr ⟨by omega, lexLt_trans _ _ _ h2 g2⟩

theorem mem_insSorted {x a : String} : ∀ l, a ∈ insSorted x l ↔ a = x ∨ a ∈ l := by
  intro l
  induction l with
  | nil => simp [insSorted]
  | cons y ys ih =>
    cases h : keyLt x y with
    | true => simp [insSorted, h]
    | false =>
      rw [insSorted, if_neg (by simp [h])]
      simp only [List.mem_cons, ih]
      tauto

theorem mem_sortByKey {a : String} : ∀ l, a ∈ sortByKey l ↔ a ∈ l := by
  intro l
  induction l with
  | nil => simp [sortByKey]
  | cons x xs ih => simp [sortByKey, mem_insSorted, ih]

theorem insSorted_length {x : String} : ∀ l, (insSorted x l).length = l.length + 1 := by
  intro l
  induction l with
  | nil => rfl
  | cons y ys ih =>
    by_cases h : keyLt x y
    · simp [insSorted, h]
    · simp [insSorted, h, ih]

theorem sortByKey_length : ∀ l : List String, (sortByKey l).length = l.length := by
  intro l
  induction l with
  | nil => rfl
  | cons x xs ih => simp [sortByKey, insSorted_length, ih]

theorem sortByKey_head_min :
    ∀ (l : List String) (x : String) (rest : List String),
      sortByKey l = x :: rest → ∀ c ∈ l, keyLt c x = false := by
  intro l
  induction l with
  | nil => intro x rest h; simp [sortByKey] at h
  | cons a as ih =>
    intro x rest h c hc
    rw [sortByKey] at h
    cases hs : sortByKey as with
    | nil =>
      rw [hs] at h
      rw [insSorted] at h
      injection h with hxa _
      have has : as = [] := by
        have := sortByKey_length as
        rw [hs] at this
        exact List.length_eq_zero.mp this.symm
      rcases List.mem_cons.mp hc with rfl | hc2
      · rw [← hxa]
        exact keyLt_irrefl c
      · rw [has] at hc2
        cases hc2
    | cons h0 hs0 =>
      rw [hs] at h
      rw [insSorted] at h
      by_cases hk : keyLt a h0
      · rw [if_pos hk] at h
        injection h with hxa _
        rcases List.mem_cons.mp hc with rfl | hc2
        · rw [← hxa]
          exact keyLt_irrefl c
        · have hch0 : keyLt c h0 = false := ih h0 hs0 hs c hc2
          by_contra hcx
          have hcx2 : keyLt c x = true := by simpa using hcx
          rw [← hxa] at hcx2
          rw [keyLt_trans hcx2 hk] at hch0
          cases hch0
      · rw [if_neg hk] at h
        injection h with hxa _
        rcases List.mem_cons.mp hc with rfl | hc2
        · rw [← hxa]
          simpa using hk
        · rw [← hxa]
          exact ih h0 hs0 hs c hc2

/-! ### Claim theorems: ambiguous-shadow resolution -/

/-- C7: for every non-empty candidate list, `resolve_ambiguous_shadow`
returns a member of the list that no candidate beats in the
(length, code-point-lexicographic) order — the shortest filename, ties
broken lexicographically — and on the spec's two examples it returns
`"c.png"` and `"aa.png"` respectively. -/
theorem resolve_ambiguous_shadow_spec :
    resolve_ambiguous_shadow ["bb.png", "aa.png", "c.png"] = some "c.png" ∧
    resolve_ambiguous_shadow ["bb.png", "aa.png"] = some "aa.png" ∧
    ∀ cs : List String, cs ≠ [] →
      ∃ m, resolve_ambiguous_shadow cs = some m ∧ m ∈ cs ∧ ∀ c ∈ cs, keyLt c m = false := by
  refine ⟨by decide, by decide, ?_⟩
  intro cs hne
  cases cs with
  | nil => exact absurd rfl hne
  | cons a as =>
    cases hs : sortByKey (a :: as) with
    | nil =>
      have := sortByKey_length (a :: as)
      rw [hs] at this
      simp at this
    | cons x rest =>
      refine ⟨x, ?_, ?_, ?_⟩
      · show (sortByKey (a :: as)).head? = some x
        rw [hs]
        rfl
      · have : x ∈ sortByKey (a :: as) := by
          rw [hs]
          exact List.mem_cons_self x rest
        exact (mem_sortByKey (a :: as)).mp this
      · exact sortByKey_head_min (a :: as) x rest hs

theorem resolve_ambiguous_shadow_spec_witness :
    ∃ m, resolve_ambiguous_shadow ["a_shadow.png", "a__shadow.png"] = some m ∧
      m ∈ ["a_shadow.png", "a__shadow.png"] ∧
      ∀ c ∈ ["a_shadow.png", "a__shadow.png"], keyLt c m = false :=
  resolve_ambiguous_shadow_spec.2.2 ["a_shadow.png", "a__shadow.png"] (by simp)

/-! ### Lemmas about the shadow-matching pipeline -/

theorem headI_mem {l : List String} (h : l ≠ []) : l.headI ∈ l := by
  cases l with
  | nil => exact absurd rfl h
  | cons a as => exact List.mem_cons_self a as

theorem resolve_mem {cs : List String} (h : cs ≠ []) :
    ∃ r, resolve_ambiguous_shadow cs = some r ∧ r ∈ cs := by
  cases cs with
  | nil => exact absurd rfl h
  | cons a as =>
    cases hs : sortByKey (a :: as) with
    | nil =>
      have := sortByKey_length (a :: as)
      rw [hs] at this
      simp at this
    | cons x rest =>
      refine ⟨x, ?_, ?_⟩
      · show (sortByKey (a :: as)).head? = some x
        rw [hs]
        rfl
      · have : x ∈ sortByKey (a :: as) := by
          rw [hs]
          exact List.mem_cons_self x rest
        exact (mem_sortByKey (a :: as)).mp this

theorem dictGet_mem :
    ∀ (m : List (String × List String)) (k : String) (vs : List String),
      dictGet m k = some vs → (k, vs) ∈ m := by
  intro m
  induction m with
  | nil => intro k vs h; cases h
  | cons p rest ih =>
    intro k vs h
    obtain ⟨k2, vs2⟩ := p
    rw [dictGet] at h
    by_cases he : k2 = k
    · rw [if_pos he] at h
      cases h
      subst he
      exact List.mem_cons_self _ _
    · rw [if_neg he] at h
      exact List.mem_cons_of_mem _ (ih k vs h)

theorem bucketAdd_mem :
    ∀ (m : List (String × List String)) (k v k2 : String) (vs2 : List String),
      (k2, vs2) ∈ bucketAdd m k v →
        (k2, vs2) ∈ m ∨ (∃ vs3, (k2, vs3) ∈ m ∧ vs2 = vs3 ++ [v]) ∨ vs2 = [v] := by
  intro m
  induction m with
  | nil =>
    intro k v k2 vs2 h
    rw [bucketAdd] at h
    rcases List.mem_cons.mp h with he | he
    · right; right
      injection he with _ h2
    · cases he
  | cons p rest ih =>
    intro k v k2 vs2 h
    obtain ⟨k3, vs3⟩ := p
    rw [bucketAdd] at h
    by_cases he : k3 = k
    · rw [if_pos he] at h
      rcases List.mem_cons.mp h with hh | hh
      · injection hh with h1 h2
        subst h1
        exact Or.inr (Or.inl ⟨vs3, List.mem_cons_self _ _, h2⟩)
      · exact Or.inl (List.mem_cons_of_mem _ hh)
    · rw [if_neg he] at h
      rcases List.mem_cons.mp h with hh | hh
      · exact Or.inl (hh ▸ List.mem_cons_self _ _)
      · rcases ih k v k2 vs2 hh with h1 | ⟨vs4, h4, h5⟩ | h1
        · exact Or.inl (List.mem_cons_of_mem _ h1)
        · exact Or.inr (Or.inl ⟨vs4, List.mem_cons_of_mem _ h4, h5⟩)
        · exact Or.inr (Or.inr h1)

theorem foldl_bucket_inv (P : String → Prop) :
    ∀ (l : List String) (acc : List (String × List String)),
      (∀ k vs, (k, vs) ∈ acc → vs ≠ [] ∧ ∀ u ∈ vs, P u) →
      (∀ s ∈ l, P s) →
      ∀ k vs,
        (k, vs) ∈ l.foldl
          (fun m sf => bucketAdd m (strip_shadow_suffix (normalize_filename sf)) sf) acc →
        vs ≠ [] ∧ ∀ u ∈ vs, P u := by
  intro l
  induction l with
  | nil => intro acc hacc _ k vs h; exact hacc k vs h
  | cons a as ih =>
    intro acc hacc hl k vs h
    rw [List.foldl_cons] at h
    refine ih (bucketAdd acc (strip_shadow_suffix (normalize_filename a)) a) ?_
      (fun s hs => hl s (List.mem_cons_of_mem a hs)) k vs h
    intro k2 vs2 h2
    rcases bucketAdd_mem acc _ a k2 vs2 h2 with h3 | ⟨vs3, h3, h4⟩ | h3
    · exact hacc k2 vs2 h3
    · obtain ⟨hne, hvals⟩ := hacc k2 vs3 h3
      subst h4
      refine ⟨by simp, fun u hu => ?_⟩
      rcases List.mem_append.mp hu with hu2 | hu2
      · exact hvals u hu2
      · rw [List.mem_singleton.mp hu2]
        exact hl a (List.mem_cons_self a as)
    · subst h3
      refine ⟨by simp, fun u hu => ?_⟩
      rw [List.mem_singleton.mp hu]
      exact hl a (List.mem_cons_self a as)

/-- Every bucket of the shadow map is nonempty and draws its filenames
from the input shadow list. -/
theorem build_shadow_map_vals {shadows : List String} {k : String} {vs : List String}
    (h : (k, vs) ∈ build_shadow_map shadows) : vs ≠ [] ∧ ∀ u ∈ vs, u ∈ shadows :=
  foldl_bucket_inv (· ∈ shadows) shadows [] (fun _ _ hm => absurd hm (List.not_mem_nil _))
    (fun _ hs => hs) k vs h

theorem msfs_cases (s : String) (m : List (String × List String)) :
    (match_shadow_for_sprite s m).1 = "matched" ∨
    (match_shadow_for_sprite s m).1 = "missing" ∨
    (match_shadow_for_sprite s m).1 = "ambiguous" := by
  unfold match_shadow_for_sprite
  cases dictGet m (normalize_filename s) with
  | none => simp
  | some c =>
    by_cases h : c.length = 1 <;> simp [h]

theorem msfs_bucket {s : String} {m : List (String × List String)}
    (h : ¬(match_shadow_for_sprite s m).1 = "missing") :
    dictGet m (normalize_filename s) = some (match_shadow_for_sprite s m).2 := by
  cases hd : dictGet m (normalize_filename s) with
  | none =>
    exfalso
    apply h
    unfold match_shadow_for_sprite
    rw [hd]
  | some c =>
    unfold match_shadow_for_sprite
    rw [hd]
    by_cases hl : c.length = 1 <;> simp [hl]

theorem smStep_matched {m : List (String × List String)} {r : ShadowMatchResult} {s : String}
    (h : (match_shadow_for_sprite s m).1 = "matched") :
    smStep m r s =
      { r with matchesMap := r.matchesMap ++ [(s, (match_shadow_for_sprite s m).2.headI)] } := by
  simp only [smStep]
  rw [if_pos h]

theorem smStep_missing_eq {m : List (String × List String)} {r : ShadowMatchResult} {s : String}
    (h : (match_shadow_for_sprite s m).1 = "missing") :
    smStep m r s = { r with missing := r.missing ++ [s] } := by
  simp only [smStep]
  rw [if_neg (by rw [h]; decide), if_pos h]

theorem smStep_amb {m : List (String × List String)} {r : ShadowMatchResult} {s : String}
    (h1 : ¬(match_shadow_for_sprite s m).1 = "matched")
    (h2 : ¬(match_shadow_for_sprite s m).1 = "missing") :
    smStep m r s =
      { r with
        ambiguous := r.ambiguous ++ [(s, (match_shadow_for_sprite s m).2)],
        matchesMap := r.matchesMap ++
          [(s, (resolve_ambiguous_shadow (match_shadow_for_sprite s m).2).getD "")] } := by
  simp only [smStep]
  rw [if_neg h1, if_neg h2]

theorem smFold_missing_eq (m : List (String × List String)) :
    ∀ (l : List String) (r : ShadowMatchResult),
      (l.foldl (smStep m) r).missing =
        r.missing ++ l.filter (fun s => decide ((match_shadow_for_sprite s m).1 = "missing")) := by
  intro l
  induction l with
  | nil => intro r; simp
  | cons a as ih =>
    intro r
    rw [List.foldl_cons, ih]
    rcases msfs_cases a m with ha | ha | ha
    · rw [smStep_matched ha]
      simp [List.filter_cons, ha]
    · rw [smStep_missing_eq ha]
      simp [List.filter_cons, ha]
    · rw [smStep_amb (by rw [ha]; decide) (by rw [ha]; decide)]
      simp [List.filter_cons, ha]

theorem smFold_matches_eq (m : List (String × List String)) :
    ∀ (l : List String) (r : ShadowMatchResult),
      (l.foldl (smStep m) r).matchesMap =
        r.matchesMap ++ l.filterMap (fun s =>
          if (match_shadow_for_sprite s m).1 = "matched" then
            some (s, (match_shadow_for_sprite s m).2.headI)
          else if (match_shadow_for_sprite s m).1 = "missing" then none
          else some (s, (resolve_ambiguous_shadow (match_shadow_for_sprite s m).2).getD "")) := by
  intro l
  induction l with
  | nil => intro r; simp
  | cons a as ih =>
    intro r
    rw [List.foldl_cons, ih]
    rcases msfs_cases a m with ha | ha | ha
    · rw [smStep_matched ha]
      simp [List.filterMap_cons, ha]
    · rw [smStep_missing_eq ha]
      simp [List.filterMap_cons, ha]
    · rw [smStep_amb (by rw [ha]; decide) (by rw [ha]; decide)]
      simp [List.filterMap_cons, ha]

theorem smFold_amb_eq (m : List (String × List String)) :
    ∀ (l : List String) (r : ShadowMatchResult),
      (l.foldl (smStep m) r).ambiguous =
        r.ambiguous ++ l.filterMap (fun s =>
          if (match_shadow_for_sprite s m).1 = "matched" then none
          else if (match_shadow_for_sprite s m).1 = "missing" then none
          else some (s, (match_shadow_for_sprite s m).2)) := by
  intro l
  induction l with
  | nil => intro r; simp
  | cons a as ih =>
    intro r
    rw [List.foldl_cons, ih]
    rcases msfs_cases a m with ha | ha | ha
    · rw [smStep_matched ha]
      simp [List.filterMap_cons, ha]
    · rw [smStep_missing_eq ha]
      simp [List.filterMap_cons, ha]
    · rw [smStep_amb (by rw [ha]; decide) (by rw [ha]; decide)]
      simp [List.filterMap_cons, ha]

/-! ### Claim theorems: shadow-matching partition -/

/-- C10: the shadow-matching result partitions the sprites — every sprite
is a key of the matches map exactly when it is not in the missing list,
every ambiguous sprite is auto-resolved into the matches map, and every
resolved shadow filename is drawn from the input shadow list. -/
theorem process_shadow_matching_partition (sprites shadows : List String) :
    (∀ s ∈ sprites,
      ((∃ v, (s, v) ∈ (process_shadow_matching sprites shadows).matchesMap) ↔
        s ∉ (process_shadow_matching sprites shadows).missing)) ∧
    (∀ s cs, (s, cs) ∈ (process_shadow_matching sprites shadows).ambiguous →
      ∃ v, (s, v) ∈ (process_shadow_matching sprites shadows).matchesMap) ∧
    (∀ s v, (s, v) ∈ (process_shadow_matching sprites shadows).matchesMap → v ∈ shadows) := by
  set m := build_shadow_map shadows with hm
  have hmiss : (process_shadow_matching sprites shadows).missing =
      sprites.filter (fun s => decide ((match_shadow_for_sprite s m).1 = "missing")) := by
    rw [process_shadow_matching, smFold_missing_eq]
    rfl
  have hmat : (process_shadow_matching sprites shadows).matchesMap =
      sprites.filterMap (fun s =>
        if (match_shadow_for_sprite s m).1 = "matched" then
          some (s, (match_shadow_for_sprite s m).2.headI)
        else if (match_shadow_for_sprite s m).1 = "missing" then none
        else some (s, (resolve_ambiguous_shadow (match_shadow_for_sprite s m).2).getD "")) := by
    rw [process_shadow_matching, smFold_matches_eq]
    rfl
  have hamb : (process_shadow_matching sprites shadows).ambiguous =
      sprites.filterMap (fun s =>
        if (match_shadow_for_sprite s m).1 = "matched" then none
        else if (match_shadow_for_sprite s m).1 = "missing" then none
        else some (s, (match_shadow_for_sprite s m).2)) := by
    rw [process_shadow_matching, smFold_amb_eq]
    rfl
  have hkey : ∀ s, (∃ v, (s, v) ∈ (process_shadow_matching sprites shadows).matchesMap) ↔
      (s ∈ sprites ∧ ¬(match_shadow_for_sprite s m).1 = "missing") := by
    intro s
    rw [hmat]
    constructor
    · rintro ⟨v, hv⟩
      obtain ⟨a, ha, hfa⟩ := List.mem_filterMap.mp hv
      rcases msfs_cases a m with hst | hst | hst
      · rw [if_pos hst] at hfa
        injection hfa with h1
        injection h1 with h2 _
        subst h2
        exact ⟨ha, by rw [hst]; decide⟩
      · rw [if_neg (by rw [hst]; decide), if_pos hst] at hfa
        cases hfa
      · rw [if_neg (by rw [hst]; decide), if_neg (by rw [hst]; decide)] at hfa
        injection hfa with h1
        injection h1 with h2 _
        subst h2
        exact ⟨ha, by rw [hst]; decide⟩
    · rintro ⟨hs, hst⟩
      rcases msfs_cases s m with h1 | h1 | h1
      · exact ⟨(match_shadow_for_sprite s m).2.headI,
          List.mem_filterMap.mpr ⟨s, hs, by rw [if_pos h1]⟩⟩
      · exact absurd h1 hst
      · exact ⟨(resolve_ambiguous_shadow (match_shadow_for_sprite s m).2).getD "",
          List.mem_filterMap.mpr ⟨s, hs,
            by rw [if_neg (by rw [h1]; decide), if_neg (by rw [h1]; decide)]⟩⟩
  refine ⟨?_, ?_, ?_⟩
  · intro s hs
    rw [hkey s, hmiss]
    constructor
    · rintro ⟨_, hst⟩ hmem
      have := List.of_mem_filter hmem
      simp only [decide_eq_true_eq] at this
      exact hst this
    · intro hnot
      refine ⟨hs, fun hst => hnot ?_⟩
      exact List.mem_filter.mpr ⟨hs, by simp [hst]⟩
  · intro s cs hcs
    rw [hamb] at hcs
    obtain ⟨a, ha, hfa⟩ := List.mem_filterMap.mp hcs
    rcases msfs_cases a m with hst | hst | hst
    · rw [if_pos hst] at hfa
      cases hfa
    · rw [if_neg (by rw [hst]; decide), if_pos hst] at hfa
      cases hfa
    · rw [if_neg (by rw [hst]; decide), if_neg (by rw [hst]; decide)] at hfa
      injection hfa with h1
      injection h1 with h2 _
      subst h2
      exact (hkey a).mpr ⟨ha, by rw [hst]; decide⟩
  · intro s v hv
    rw [hmat] at hv
    obtain ⟨a, ha, hfa⟩ := List.mem_filterMap.mp hv
    rcases msfs_cases a m with hst | hst | hst
    · rw [if_pos hst] at hfa
      injection hfa with h1
      injection h1 with h2 h3
      have hbucket := msfs_bucket (s := a) (m := m) (by rw [hst]; decide)
      have hmem := dictGet_mem m _ _ hbucket
      obtain ⟨hne, hvals⟩ := build_shadow_map_vals (hm ▸ hmem)
      exact hvals v (h3 ▸ headI_mem hne)
    · rw [if_neg (by rw [hst]; decide), if_pos hst] at hfa
      cases hfa
    · rw [if_neg (by rw [hst]; decide), if_neg (by rw [hst]; decide)] at hfa
      injection hfa with h1
      injection h1 with h2 h3
      have hbucket := msfs_bucket (s := a) (m := m) (by rw [hst]; decide)
      have hmem := dictGet_mem m _ _ hbucket
      obtain ⟨hne, hvals⟩ := build_shadow_map_vals (hm ▸ hmem)
      obtain ⟨rr, hr1, hr2⟩ := resolve_mem hne
      have : v = rr := by rw [← h3, hr1]; rfl
      exact this ▸ hvals rr hr2

theorem process_shadow_matching_partition_witness :
    (String.mk ('a' :: '.' :: 'p' :: 'n' :: 'g' :: []) ∉
      (process_shadow_matching [String.mk ('a' :: '.' :: 'p' :: 'n' :: 'g' :: [])]
        [String.mk ('a' :: '_' :: 's' :: 'h' :: 'a' :: 'd' :: 'o' :: 'w' :: '.' :: 'p' :: 'n' :: 'g' :: [])]).missing) ∧
    String.mk ('a' :: '_' :: 's' :: 'h' :: 'a' :: 'd' :: 'o' :: 'w' :: '.' :: 'p' :: 'n' :: 'g' :: []) ∈
      [String.mk ('a' :: '_' :: 's' :: 'h' :: 'a' :: 'd' :: 'o' :: 'w' :: '.' :: 'p' :: 'n' :: 'g' :: [])] :=
  ⟨((process_shadow_matching_partition
        [String.mk ('a' :: '.' :: 'p' :: 'n' :: 'g' :: [])]
        [String.mk ('a' :: '_' :: 's' :: 'h' :: 'a' :: 'd' :: 'o' :: 'w' :: '.' :: 'p' :: 'n' :: 'g' :: [])]).1
      _ (List.mem_cons_self _ _)).mp
      ⟨String.mk ('a' :: '_' :: 's' :: 'h' :: 'a' :: 'd' :: 'o' :: 'w' :: '.' :: 'p' :: 'n' :: 'g' :: []),
        by decide⟩,
   (process_shadow_matching_partition
        [String.mk ('a' :: '.' :: 'p' :: 'n' :: 'g' :: [])]
        [String.mk ('a' :: '_' :: 's' :: 'h' :: 'a' :: 'd' :: 'o' :: 'w' :: '.' :: 'p' :: 'n' :: 'g' :: [])]).2.2
      (String.mk ('a' :: '.' :: 'p' :: 'n' :: 'g' :: []))
      (String.mk ('a' :: '_' :: 's' :: 'h' :: 'a' :: 'd' :: 'o' :: 'w' :: '.' :: 'p' :: 'n' :: 'g' :: []))
      (by decide)⟩

/-! ### Lemmas about the sprite pipeline -/

/-- `placeStage` either leaves the ignored list unchanged or appends one
entry whose reason is never `"duplicate"`; it never touches `last_image`. -/
theorem placeStage_shape (p : AtlasParams) (n : String) (img : ImageData)
    (sh : Option ImageData) (st : BuildState) :
    ((placeStage p n img sh st).ignored = st.ignored ∨
      ∃ r, (placeStage p n img sh st).ignored = st.ignored ++ [(n, r)] ∧ ¬r = "duplicate") ∧
    (placeStage p n img sh st).last = st.last := by
  unfold placeStage
  cases hps : process_sprite p img sh with
  | error e =>
    dsimp only
    refine ⟨Or.inr ⟨"processing error: " ++ e, rfl, fun hcon => ?_⟩, rfl⟩
    have hlen := congrArg String.length hcon
    rw [String.length_append] at hlen
    have h1 : String.length "processing error: " = 18 := by decide
    have h2 : String.length "duplicate" = 9 := by decide
    omega
  | ok img2 =>
    dsimp only
    by_cases ha : img2.w % p.tile_size ≠ 0 ∨ img2.h % p.tile_size ≠ 0
    · rw [if_pos ha]
      exact ⟨Or.inr ⟨"size alignment", rfl, by decide⟩, rfl⟩
    · rw [if_neg ha]
      by_cases hw : img2.w / p.tile_size > p.width
      · rw [if_pos hw]
        exact ⟨Or.inr ⟨"too wide", rfl, by decide⟩, rfl⟩
      · rw [if_neg hw]
        cases find_position st.tileMap p.width (img2.w / p.tile_size) (img2.h / p.tile_size) with
        | none => exact ⟨Or.inl rfl, rfl⟩
        | some pm => exact ⟨Or.inl rfl, rfl⟩

/-! ### Claim theorems: sprite pipeline -/

/-- C2 (code behaviour at the failing input): with shadow mode on and
`missing_shadow_policy = "fail"`, a sprite without a resolved shadow does
not abort the build — the raised `ValueError` is caught by the per-sprite
`except Exception` handler, the sprite is downgraded to a per-sprite
`"processing error: Missing shadow for ..."` report entry, and the build
still produces an atlas from the remaining sprite. -/
theorem fail_policy_downgraded :
    process_images
      { tile_size := 52, width := 6, use_shadow_images := true,
        missing_shadow_policy := "fail" }
      [⟨"a.png", some ⟨52, 52, 1⟩, ""⟩, ⟨"b.png", some ⟨52, 52, 2⟩, ""⟩]
      ["b_shadow.png"] =
    Except.ok ((312, 52),
      ⟨[("a.png", "processing error: Missing shadow for a.png")], ["a.png"], []⟩) := by
  decide

/-- C6 (code behaviour at the failing input): a 7-tile-wide sprite
(364 × 208 pixels at tile size 52) with `width = 6` is not ignored as
`"too wide"` — `process_sprite` resizes every sprite to pixel width
`tile_size`, so its footprint width is 1 and it is placed at `(0, 0)`
with an empty ignored list. -/
theorem too_wide_sprite_is_placed :
    process_images { tile_size := 52, width := 6 }
      [⟨"wide.png", some ⟨364, 208, 1⟩, ""⟩] [] =
    Except.ok ((312, 52), ⟨[], [], []⟩) := by
  decide

/-- C4 (counterexample): the duplicate comparison base is the previous
decoded, non-duplicate sprite even when that sprite was itself ignored.
Under `missing_shadow_policy = "ignoreSprite"`, sprite `x.png` is ignored
with `"missing shadow"` — it is not kept — yet the pixel-identical
`y.png` right after it is still ignored as `"duplicate"`, although no
kept sprite precedes it. -/
theorem duplicate_base_not_kept :
    process_images
      { tile_size := 52, width := 6, use_shadow_images := true,
        missing_shadow_policy := "ignoreSprite" }
      [⟨"x.png", some ⟨52, 52, 5⟩, ""⟩, ⟨"y.png", some ⟨52, 52, 5⟩, ""⟩,
        ⟨"z.png", some ⟨52, 52, 7⟩, ""⟩]
      ["z_shadow.png"] =
    Except.ok ((312, 52),
      ⟨[("x.png", "missing shadow"), ("y.png", "duplicate")], ["x.png", "y.png"], []⟩) := by
  decide

/-- C4 (amended): a sprite that passes the sampling filter and decodes to
`img` is ignored as `"duplicate"` exactly when `last_image` — the most
recent previously decoded, non-duplicate sprite, kept or not — holds a
pixel-identical image; every decoded non-duplicate sprite then becomes
the new comparison base, even if a later stage ignores it, while a
duplicate leaves the base unchanged. -/
theorem duplicate_iff_last_image (p : AtlasParams) (shadowKeys : List String)
    (st : BuildState) (i : Nat) (sp : SpriteIn) (img : ImageData)
    (hs : ¬(p.sample > 1 ∧ i % p.sample ≠ 0)) (himg : sp.image = some img) :
    ((stepSprite p shadowKeys st i sp).ignored = st.ignored ++ [(sp.name, "duplicate")] ↔
      ∃ l, st.last = some l ∧ image_equal l img = true) ∧
    ((∀ l, st.last = some l → image_equal l img = false) →
      (stepSprite p shadowKeys st i sp).last = some img) ∧
    ((∃ l, st.last = some l ∧ image_equal l img = true) →
      (stepSprite p shadowKeys st i sp).last = st.last) := by
  unfold stepSprite
  rw [if_neg hs, himg]
  cases hl : st.last with
  | none =>
    dsimp only
    simp only [Bool.false_eq_true, if_false]
    refine ⟨?_, ?_, ?_⟩
    · constructor
      · intro hig
        by_cases hsh : p.use_shadow_images && !(shadowKeys.contains sp.name)
        · rw [if_pos hsh] at hig
          by_cases hp1 : p.missing_shadow_policy = "ignoreSprite"
          · rw [if_pos hp1] at hig
            have := List.append_cancel_left hig
            simp at this
          · rw [if_neg hp1] at hig
            by_cases hp2 : p.missing_shadow_policy = "fail"
            · rw [if_pos hp2] at hig
              have := List.append_cancel_left hig
              simp at this
              have h1 : String.length "processing error: Missing shadow for " = 37 := by decide
              have h2 : String.length "duplicate" = 9 := by decide
              have hlen := congrArg String.length this
              rw [String.length_append, h1, h2] at hlen
              exact absurd hlen (by omega)
            · rw [if_neg hp2] at hig
              rcases (placeStage_shape p sp.name img none _).1 with hsh2 | ⟨r, hr, hrne⟩
              · rw [hig] at hsh2
                simp at hsh2
              · rw [hig] at hr
                have := List.append_cancel_left hr
                injection this with h1
                injection h1 with _ h2
                exact absurd h2.symm hrne
        · rw [if_neg hsh] at hig
          rcases (placeStage_shape p sp.name img none _).1 with hsh2 | ⟨r, hr, hrne⟩
          · rw [hig] at hsh2
            simp at hsh2
          · rw [hig] at hr
            have := List.append_cancel_left hr
            injection this with h1
            injection h1 with _ h2
            exact absurd h2.symm hrne
      · rintro ⟨l, hl2, _⟩
        cases hl2
    · intro _
      by_cases hsh : p.use_shadow_images && !(shadowKeys.contains sp.name)
      · rw [if_pos hsh]
        by_cases hp1 : p.missing_shadow_policy = "ignoreSprite"
        · rw [if_pos hp1]
        · rw [if_neg hp1]
          by_cases hp2 : p.missing_shadow_policy = "fail"
          · rw [if_pos hp2]
          · rw [if_neg hp2]
            exact (placeStage_shape p sp.name img none _).2
      · rw [if_neg hsh]
        exact (placeStage_shape p sp.name img none _).2
    · rintro ⟨l, hl2, _⟩
      cases hl2
  | some l0 =>
    dsimp only
    cases heq : image_equal l0 img with
    | true =>
      rw [if_pos rfl]
      refine ⟨?_, ?_, ?_⟩
      · exact ⟨fun _ => ⟨l0, rfl, heq⟩, fun _ => rfl⟩
      · intro hall
        rw [hall l0 rfl] at heq
        cases heq
      · intro _
        rfl
    | false =>
      simp only [Bool.false_eq_true, if_false]
      refine ⟨?_, ?_, ?_⟩
      · constructor
        · intro hig
          by_cases hsh : p.use_shadow_images && !(shadowKeys.contains sp.name)
          · rw [if_pos hsh] at hig
            by_cases hp1 : p.missing_shadow_policy = "ignoreSprite"
            · rw [if_pos hp1] at hig
              have := List.append_cancel_left hig
              simp at this
            · rw [if_neg hp1] at hig
              by_cases hp2 : p.missing_shadow_policy = "fail"
              · rw [if_pos hp2] at hig
                have := List.append_cancel_left hig
                simp at this
                have h1 : String.length "processing error: Missing shadow for " = 37 := by decide
                have h2 : String.length "duplicate" = 9 := by decide
                have hlen := congrArg String.length this
                rw [String.length_append, h1, h2] at hlen
                exact absurd hlen (by omega)
              · rw [if_neg hp2] at hig
                rcases (placeStage_shape p sp.name img none _).1 with hsh2 | ⟨r, hr, hrne⟩
                · rw [hig] at hsh2
                  simp at hsh2
                · rw [hig] at hr
                  have := List.append_cancel_left hr
                  injection this with h1
                  injection h1 with _ h2
                  exact absurd h2.symm hrne
          · rw [if_neg hsh] at hig
            rcases (placeStage_shape p sp.name img none _).1 with hsh2 | ⟨r, hr, hrne⟩
            · rw [hig] at hsh2
              simp at hsh2
            · rw [hig] at hr
              have := List.append_cancel_left hr
              injection this with h1
              injection h1 with _ h2
              exact absurd h2.symm hrne
        · rintro ⟨l, hl2, hleq⟩
          injection hl2 with hll
          rw [hll] at heq
          rw [heq] at hleq
          cases hleq
      · intro _
        by_cases hsh : p.use_shadow_images && !(shadowKeys.contains sp.name)
        · rw [if_pos hsh]
          by_cases hp1 : p.missing_shadow_policy = "ignoreSprite"
          · rw [if_pos hp1]
          · rw [if_neg hp1]
            by_cases hp2 : p.missing_shadow_policy = "fail"
            · rw [if_pos hp2]
            · rw [if_neg hp2]
              exact (placeStage_shape p sp.name img none _).2
        · rw [if_neg hsh]
          exact (placeStage_shape p sp.name img none _).2
      · rintro ⟨l, hl2, hleq⟩
        injection hl2 with hll
        rw [hll] at heq
        rw [heq] at hleq
        cases hleq

theorem duplicate_iff_last_image_witness :
    (stepSprite {} [] ⟨[], none, emptyMap, []⟩ 0 ⟨"s.png", some ⟨52, 52, 1⟩, ""⟩).last =
      some ⟨52, 52, 1⟩ :=
  (duplicate_iff_last_image {} [] ⟨[], none, emptyMap, []⟩ 0 ⟨"s.png", some ⟨52, 52, 1⟩, ""⟩
      ⟨52, 52, 1⟩ (by decide) rfl).2.1 (fun l hl => by cases hl)

end OzxAtlas
